import Mathlib

/-!
# Verification of the Neura core algorithms

A shallow embedding of the three algorithmic components of the backend:

* the SM-2 spaced-repetition scheduler (`app/utils/sm2.py`),
* the token-bounded sliding-window chunker (`app/utils/chunker.py`),
* the RAG context assembler and history trimmer (`app/routes/chat.py`),

together with theorems settling the specification's testable properties.

Modelling conventions:

* Python `int` becomes `ℤ`, Python `float` becomes `ℚ` (exact arithmetic;
  the SM-2 constants 0.1, 0.08, 0.02, 1.3 are written as the rationals they denote).
* A Python function that can raise becomes `Except String α`, carrying the
  source's error message.
* The tiktoken encoder is abstracted: `encode : String → List Nat` stands for
  `encoder.encode`, `decode : List Nat → String` for `encoder.decode`, and
  `tokens : String → ℕ` for `count_tokens`.  All are total Lean functions, so the
  source's encoder-failure fallback branches are dead code in the model.
-/

/-! ## SM-2 scheduler (`app/utils/sm2.py`) -/

/-- `MIN_EFACTOR = 1.3` from sm2.py. -/
def MIN_EFACTOR : ℚ := 13 / 10

/-- `DEFAULT_EFACTOR = 2.5` from sm2.py. -/
def DEFAULT_EFACTOR : ℚ := 5 / 2

/-- `MIN_QUALITY = 0` from sm2.py. -/
def MIN_QUALITY : ℤ := 0

/-- `MAX_QUALITY = 5` from sm2.py. -/
def MAX_QUALITY : ℤ := 5

/-- `PASSING_QUALITY = 3` from sm2.py. -/
def PASSING_QUALITY : ℤ := 3

/-- `MAX_INTERVAL_DAYS = 3650` from sm2.py. -/
def MAX_INTERVAL_DAYS : ℤ := 3650

/-- Python's built-in `round` evaluated on an exact rational value:
round half to even (banker's rounding), the semantics of `round` on floats. -/
def pyRound (x : ℚ) : ℤ :=
  let f := ⌊x⌋
  let frac := x - (f : ℚ)
  if frac < 1 / 2 then f
  else if (1 / 2 : ℚ) < frac then f + 1
  else if f % 2 = 0 then f else f + 1

/-- `SM2Result` from sm2.py.  The `next_review` timestamp (wall clock,
`now + interval` days) is outside the model; the three numeric fields are kept. -/
structure SM2Result where
  efactor : ℚ
  repetitions : ℤ
  interval : ℤ
deriving DecidableEq, Repr

/-- `calculate_sm2` from sm2.py, lines 74-158.  Mirrors the source line by line:
quality range check (the `isinstance` test is vacuous for `quality : ℤ`), clamp of
the incoming efactor, repetitions/interval validation, the SM-2 efactor update with
floor 1.3, the pass/fail repetition ladder, the per-branch floor at 1, and the final
cap at `MAX_INTERVAL_DAYS`. -/
def calculate_sm2 (quality : ℤ) (current_efactor : ℚ)
    (current_repetitions : ℤ) (current_interval : ℤ) : Except String SM2Result :=
  if quality < MIN_QUALITY ∨ MAX_QUALITY < quality then
    .error "Quality must be between 0 and 5 (inclusive)"
  else
    let efactor := max current_efactor MIN_EFACTOR
    if current_repetitions < 0 then .error "Repetitions must be non-negative"
    else if current_interval < 1 then .error "Interval must be a positive integer (>= 1 day)"
    else
      let q_delta : ℚ := 5 - (quality : ℚ)
      let new_efactor_raw := efactor + (1 / 10 - q_delta * (2 / 25 + q_delta * (1 / 50)))
      let new_efactor := if new_efactor_raw < MIN_EFACTOR then MIN_EFACTOR else new_efactor_raw
      let st :=
        if quality < PASSING_QUALITY then ((0 : ℤ), (1 : ℤ))
        else
          let new_repetitions := current_repetitions + 1
          let raw :=
            if new_repetitions = 1 then (1 : ℤ)
            else if new_repetitions = 2 then 6
            else pyRound ((current_interval : ℚ) * new_efactor)
          (new_repetitions, if raw < 1 then 1 else raw)
      let capped := if MAX_INTERVAL_DAYS < st.2 then MAX_INTERVAL_DAYS else st.2
      .ok { efactor := new_efactor, repetitions := st.1, interval := capped }

/-! ## Theorems: SM-2 claims -/

/-- **C8**. Any incoming efactor is accepted (clamped up to 1.3 rather than
rejected: the result is the same as if the clamp had been applied by the caller),
and every successfully returned efactor is at least 1.3. -/
theorem calculate_sm2_efactor_floor (q : ℤ) (e : ℚ) (reps interval : ℤ) :
    calculate_sm2 q e reps interval = calculate_sm2 q (max e MIN_EFACTOR) reps interval ∧
    ∀ r : SM2Result, calculate_sm2 q e reps interval = .ok r → MIN_EFACTOR ≤ r.efactor := by
  constructor
  · simp only [calculate_sm2, max_assoc, max_self]
  · intro r h
    unfold calculate_sm2 at h
    split at h
    · exact absurd h (by simp)
    · split at h
      · exact absurd h (by simp)
      · split at h
        · exact absurd h (by simp)
        · simp only [Except.ok.injEq] at h
          subst h
          simp only
          split
          · exact le_refl _
          · next hlt => exact le_of_not_lt hlt

/-- **C3**. For valid inputs, the computation succeeds; a failing review
(quality < 3) resets repetitions to 0 and interval to 1, and repetitions is 0
in the result exactly when the review failed (a passing review returns
`prior repetitions + 1 ≥ 1`). -/
theorem calculate_sm2_fail_reset_iff (q : ℤ) (e : ℚ) (reps interval : ℤ)
    (hq0 : 0 ≤ q) (hq5 : q ≤ 5) (hr : 0 ≤ reps) (hi : 1 ≤ interval) :
    ∃ r : SM2Result, calculate_sm2 q e reps interval = .ok r ∧
      (q < 3 → r.repetitions = 0 ∧ r.interval = 1) ∧
      (r.repetitions = 0 ↔ q < 3) ∧
      (3 ≤ q → r.repetitions = reps + 1 ∧ 1 ≤ r.repetitions) := by
  simp only [calculate_sm2, MIN_QUALITY, MAX_QUALITY, PASSING_QUALITY, MAX_INTERVAL_DAYS]
  rw [if_neg (by omega), if_neg (by omega), if_neg (by omega)]
  by_cases hq : q < 3
  · rw [if_pos hq]
    refine ⟨_, rfl, ?_, ?_, ?_⟩
    · intro _
      constructor
      · rfl
      · dsimp only
        rw [if_neg (by norm_num)]
    · dsimp only
      simp [hq]
    · intro h3
      exact absurd h3 (by omega)
  · rw [if_neg hq]
    refine ⟨_, rfl, ?_, ?_, ?_⟩
    · intro hlt
      exact absurd hlt hq
    · dsimp only
      constructor
      · intro h0
        exact absurd h0 (by omega)
      · intro hlt
        exact absurd hlt hq
    · intro _
      exact ⟨rfl, by dsimp only; omega⟩

/-- Witness for C3 at quality 1 (failing), efactor 2.5, repetitions 4, interval 10. -/
theorem calculate_sm2_fail_reset_iff_witness :
    (0 : ℤ) ≤ 1 ∧ (1 : ℤ) ≤ 5 ∧ (0 : ℤ) ≤ 4 ∧ (1 : ℤ) ≤ 10 ∧
    (∃ r : SM2Result, calculate_sm2 1 (5 / 2) 4 10 = .ok r ∧
      ((1 : ℤ) < 3 → r.repetitions = 0 ∧ r.interval = 1) ∧
      (r.repetitions = 0 ↔ (1 : ℤ) < 3) ∧
      ((3 : ℤ) ≤ 1 → r.repetitions = 4 + 1 ∧ 1 ≤ r.repetitions)) :=
  ⟨by decide, by decide, by decide, by decide,
    calculate_sm2_fail_reset_iff 1 (5 / 2) 4 10 (by decide) (by decide) (by decide) (by decide)⟩

/-- **C2**. For valid passing inputs (3 ≤ quality ≤ 5), the computation succeeds,
repetitions becomes `prior + 1`, and the returned interval follows the SM-2 ladder:
1 on the first pass, 6 on the second, and `round(prior interval * new efactor)`
floored at 1 on later passes; in every case the interval is capped at 3650. -/
theorem calculate_sm2_interval_ladder (q : ℤ) (e : ℚ) (reps interval : ℤ)
    (hq3 : 3 ≤ q) (hq5 : q ≤ 5) (hr : 0 ≤ reps) (hi : 1 ≤ interval) :
    ∃ r : SM2Result, calculate_sm2 q e reps interval = .ok r ∧
      r.repetitions = reps + 1 ∧
      (r.repetitions = 1 → r.interval = 1) ∧
      (r.repetitions = 2 → r.interval = 6) ∧
      (3 ≤ r.repetitions → r.interval = min (max (pyRound ((interval : ℚ) * r.efactor)) 1) 3650) ∧
      r.interval ≤ 3650 := by
  have hq : ¬ (q < 3) := by omega
  simp only [calculate_sm2, MIN_QUALITY, MAX_QUALITY, PASSING_QUALITY, MAX_INTERVAL_DAYS]
  rw [if_neg (show ¬ (q < 0 ∨ 5 < q) by omega), if_neg (show ¬ (reps < 0) by omega),
    if_neg (show ¬ (interval < 1) by omega), if_neg hq]
  dsimp only
  refine ⟨_, rfl, rfl, ?_, ?_, ?_, ?_⟩
  · intro h1
    dsimp only at h1 ⊢
    rw [if_pos h1]
    norm_num
  · intro h2
    dsimp only at h2 ⊢
    rw [if_neg (show ¬ (reps + 1 = 1) by omega), if_pos h2]
    norm_num
  · intro h3
    dsimp only at h3 ⊢
    rw [if_neg (show ¬ (reps + 1 = 1) by omega), if_neg (show ¬ (reps + 1 = 2) by omega)]
    generalize pyRound ((interval : ℚ) * _) = R
    split_ifs <;> omega
  · dsimp only
    split_ifs <;> omega

/-- Witness for C2 at quality 4, efactor 2.5, repetitions 2, interval 6
(third consecutive pass). -/
theorem calculate_sm2_interval_ladder_witness :
    (3 : ℤ) ≤ 4 ∧ (4 : ℤ) ≤ 5 ∧ (0 : ℤ) ≤ 2 ∧ (1 : ℤ) ≤ 6 ∧
    (∃ r : SM2Result, calculate_sm2 4 (5 / 2) 2 6 = .ok r ∧
      r.repetitions = 2 + 1 ∧
      (r.repetitions = 1 → r.interval = 1) ∧
      (r.repetitions = 2 → r.interval = 6) ∧
      (3 ≤ r.repetitions →
        r.interval = min (max (pyRound (((6 : ℤ) : ℚ) * r.efactor)) 1) 3650) ∧
      r.interval ≤ 3650) :=
  ⟨by decide, by decide, by decide, by decide,
    calculate_sm2_interval_ladder 4 (5 / 2) 2 6 (by decide) (by decide) (by decide) (by decide)⟩

/-! ## Chunker (`app/utils/chunker.py`) -/

deriving instance DecidableEq for Except

/-- The emptiness test `not text or not text.strip()` from chunker.py: true when
the text is empty or whitespace-only, i.e. every character is whitespace. -/
def isBlank (text : String) : Bool := text.data.all Char.isWhitespace

/-- The sliding-window loop of `chunk_text` (chunker.py lines 98-122), written with
an explicit iteration budget `fuel` so the recursion is structural (and hence
kernel-computable): starting at `start`, take windows of `chunk_size` tokens (the
final window clipped to the remaining tokens, exactly as `tokens[start_idx:end_idx]`
clips), decode each, and advance by `step = chunk_size - overlap`.  The `0 < step`
conjunct records the termination guarantee that the caller's validation
(`chunk_size > overlap`) provides.  Each pass advances `start` by `step ≥ 1`, so a
budget of `toks.length - start` iterations always suffices; `slide` supplies it. -/
def slideAux (decode : List Nat → String) (toks : List Nat)
    (chunk_size step : ℕ) : ℕ → ℕ → List String
  | 0, _ => []
  | fuel + 1, start =>
    if start < toks.length ∧ 0 < step then
      decode ((toks.drop start).take chunk_size) ::
        slideAux decode toks chunk_size step fuel (start + step)
    else []

/-- The sliding-window loop of `chunk_text` from position `start`, with the
(provably sufficient) iteration budget filled in. -/
def slide (decode : List Nat → String) (toks : List Nat)
    (chunk_size step start : ℕ) : List String :=
  slideAux decode toks chunk_size step (toks.length - start) start

/-- `chunk_text` from chunker.py, lines 46-144.  The emptiness check precedes the
parameter validation, as in the source.  `encode`/`decode` abstract the tiktoken
encoder; both are total, so the decode-failure skip (lines 109-113) and the
encoder-failure character fallback (lines 124-144) are dead code in the model.
Errors model `ValueError` with the source's messages. -/
def chunk_text (encode : String → List Nat) (decode : List Nat → String)
    (text : String) (chunk_size overlap : ℤ) : Except String (List String) :=
  if isBlank text then .ok []
  else if chunk_size < 1 then .error "chunk_size must be positive"
  else if overlap < 0 then .error "overlap must be non-negative"
  else if chunk_size ≤ overlap then .error "chunk_size must be greater than overlap"
  else
    let toks := encode text
    if (toks.length : ℤ) ≤ chunk_size then .ok [text]
    else .ok (slide decode toks chunk_size.toNat (chunk_size - overlap).toNat 0)

/-- `get_chunk_count` from chunker.py, lines 147-205.  Same validation order as
`chunk_text`; the count formula is `math.ceil((total_tokens - overlap) /
(chunk_size - overlap))` evaluated exactly on rationals, with a minimum of 1. -/
def get_chunk_count (encode : String → List Nat)
    (text : String) (chunk_size overlap : ℤ) : Except String ℤ :=
  if isBlank text then .ok 0
  else if chunk_size < 1 then .error "chunk_size must be positive"
  else if overlap < 0 then .error "overlap must be non-negative"
  else if chunk_size ≤ overlap then .error "chunk_size must be greater than overlap"
  else
    let total : ℤ := (encode text).length
    if total ≤ chunk_size then .ok 1
    else .ok (max 1 ⌈(((total - overlap : ℤ) : ℚ) / ((chunk_size - overlap : ℤ) : ℚ))⌉)

/-- A concrete character-level encoder, used only to witness theorems about the
encoder-generic chunker functions. -/
def charEncode (s : String) : List Nat := s.data.map Char.toNat

/-- A concrete decoder matching `charEncode`. -/
def charDecode (l : List Nat) : String := String.mk (l.map Char.ofNat)

/-! ## Theorems: chunker claims -/

/-- **C9**. For every encoder and all parameter values, including invalid ones,
blank (empty or whitespace-only) text short-circuits before parameter validation:
`chunk_text` returns the empty list and `get_chunk_count` returns 0, and no error
is raised. -/
theorem chunker_blank_input_no_error (encode : String → List Nat)
    (decode : List Nat → String) (text : String) (chunk_size overlap : ℤ)
    (h : isBlank text = true) :
    chunk_text encode decode text chunk_size overlap = .ok [] ∧
    get_chunk_count encode text chunk_size overlap = .ok 0 := by
  constructor
  · unfold chunk_text
    rw [if_pos h]
  · unfold get_chunk_count
    rw [if_pos h]

/-- Witness for C9 at whitespace text and parameters violating every precondition. -/
theorem chunker_blank_input_no_error_witness :
    isBlank " " = true ∧
    (chunk_text charEncode charDecode " " 0 (-1) = .ok [] ∧
      get_chunk_count charEncode " " 0 (-1) = .ok 0) :=
  ⟨by decide, chunker_blank_input_no_error charEncode charDecode " " 0 (-1) (by decide)⟩

/-- **C4, counterexample**. The claim says invalid parameters raise even on empty
or whitespace-only text; in the code the emptiness check runs first, so with empty
text and `chunk_size = 0` (violating `chunk_size ≥ 1`) both functions succeed
instead of failing. -/
theorem chunker_invalid_params_blank_text_cex :
    chunk_text charEncode charDecode "" 0 0 = .ok [] ∧
    get_chunk_count charEncode "" 0 0 = .ok 0 ∧
    (∀ e : String, chunk_text charEncode charDecode "" 0 0 ≠ .error e) ∧
    (∀ e : String, get_chunk_count charEncode "" 0 0 ≠ .error e) := by
  have h1 : chunk_text charEncode charDecode "" 0 0 = .ok [] := by decide
  have h2 : get_chunk_count charEncode "" 0 0 = .ok 0 := by decide
  refine ⟨h1, h2, ?_, ?_⟩ <;> intro e h
  · rw [h1] at h
    exact Except.noConfusion h
  · rw [h2] at h
    exact Except.noConfusion h

/-- **C4, amended**. For every text that is *not* empty or whitespace-only, every
parameter pair violating a precondition (`chunk_size < 1`, or `overlap < 0`, or
`chunk_size ≤ overlap`) makes both `chunk_text` and `get_chunk_count` fail with a
`ValueError` before any chunking work is done. -/
theorem chunker_invalid_params_error (encode : String → List Nat)
    (decode : List Nat → String) (text : String) (chunk_size overlap : ℤ)
    (hb : isBlank text = false)
    (hbad : chunk_size < 1 ∨ overlap < 0 ∨ chunk_size ≤ overlap) :
    (∃ e : String, chunk_text encode decode text chunk_size overlap = .error e) ∧
    (∃ e : String, get_chunk_count encode text chunk_size overlap = .error e) := by
  constructor
  · unfold chunk_text
    rw [if_neg (by simp [hb])]
    by_cases h1 : chunk_size < 1
    · rw [if_pos h1]; exact ⟨_, rfl⟩
    · rw [if_neg h1]
      by_cases h2 : overlap < 0
      · rw [if_pos h2]; exact ⟨_, rfl⟩
      · rw [if_neg h2, if_pos (by omega)]; exact ⟨_, rfl⟩
  · unfold get_chunk_count
    rw [if_neg (by simp [hb])]
    by_cases h1 : chunk_size < 1
    · rw [if_pos h1]; exact ⟨_, rfl⟩
    · rw [if_neg h1]
      by_cases h2 : overlap < 0
      · rw [if_pos h2]; exact ⟨_, rfl⟩
      · rw [if_neg h2, if_pos (by omega)]; exact ⟨_, rfl⟩

/-- Witness for the amended C4 at text "a" with `chunk_size = 0`. -/
theorem chunker_invalid_params_error_witness :
    isBlank "a" = false ∧ ((0 : ℤ) < 1 ∨ (0 : ℤ) < 0 ∨ (0 : ℤ) ≤ 0) ∧
    ((∃ e : String, chunk_text charEncode charDecode "a" 0 0 = .error e) ∧
      (∃ e : String, get_chunk_count charEncode "a" 0 0 = .error e)) :=
  ⟨by decide, by decide,
    chunker_invalid_params_error charEncode charDecode "a" 0 0 (by decide) (by decide)⟩

/-- Ceiling of a quotient of integers, expressed as Euclidean integer division. -/
theorem ceil_intCast_div (a b : ℤ) (hb : 0 < b) :
    ⌈((a : ℚ) / (b : ℚ))⌉ = (a + b - 1) / b := by
  have hb' : (0 : ℚ) < (b : ℚ) := by exact_mod_cast hb
  have hq := Int.ediv_add_emod (a + b - 1) b
  have hr0 : 0 ≤ (a + b - 1) % b := Int.emod_nonneg _ (by omega)
  have hrb : (a + b - 1) % b < b := Int.emod_lt_of_pos _ hb
  rw [Int.ceil_eq_iff]
  constructor
  · rw [lt_div_iff₀ hb']
    have h : ((a + b - 1) / b - 1) * b < a := by nlinarith [hq, hr0]
    exact_mod_cast h
  · rw [div_le_iff₀ hb']
    have h : a ≤ ((a + b - 1) / b) * b := by nlinarith [hq, hrb]
    exact_mod_cast h

/-- Length of the sliding-window output: the number of window starts
`start, start+step, …` below `toks.length`, i.e. `⌈(toks.length - start)/step⌉`,
written in the `(m + step - 1)/step` form, provided the budget suffices. -/
theorem slideAux_length (decode : List Nat → String) (toks : List Nat)
    (chunk_size step : ℕ) (hstep : 0 < step) :
    ∀ (fuel start : ℕ), toks.length - start ≤ fuel →
      (slideAux decode toks chunk_size step fuel start).length =
        (toks.length - start + step - 1) / step := by
  intro fuel
  induction fuel with
  | zero =>
    intro start h
    have h0 : toks.length - start = 0 := by omega
    simp only [slideAux, List.length_nil]
    rw [h0, Nat.div_eq_of_lt (by omega)]
  | succ m ih =>
    intro start h
    simp only [slideAux]
    by_cases hc : start < toks.length ∧ 0 < step
    · rw [if_pos hc]
      simp only [List.length_cons]
      rw [ih (start + step) (by omega)]
      by_cases hms : toks.length - start ≤ step
      · have h0 : toks.length - (start + step) = 0 := by omega
        rw [h0, Nat.div_eq_of_lt (by omega),
          show (toks.length - start + step - 1) / step = 1 from
            Nat.div_eq_of_lt_le (by omega) (by omega)]
      · have e1 : toks.length - (start + step) + step - 1 = toks.length - start - 1 := by omega
        have e2 : toks.length - start + step - 1 = toks.length - start - 1 + step := by omega
        rw [e1, e2, Nat.add_div_right _ hstep]
    · rw [if_neg hc]
      have h0 : toks.length - start = 0 := by omega
      simp only [List.length_nil]
      rw [h0, Nat.div_eq_of_lt (by omega)]

/-- Length of `slide`. -/
theorem slide_length (decode : List Nat → String) (toks : List Nat)
    (chunk_size step start : ℕ) (hstep : 0 < step) :
    (slide decode toks chunk_size step start).length =
      (toks.length - start + step - 1) / step :=
  slideAux_length decode toks chunk_size step hstep _ start le_rfl

/-- **C5, counterexample**. The parameters `(chunk_size, overlap) = (3, 2)` are
valid (3 ≥ 1, 2 ≥ 0, 3 > 2), yet on a 6-token text the predicted count is
`ceil((6-2)/(3-2)) = 4` while chunking produces 6 chunks (window starts
0,1,2,3,4,5), so the prediction is off by 2 and the claimed bound of 1 fails. -/
theorem chunk_count_accuracy_cex :
    (1 : ℤ) ≤ 3 ∧ (0 : ℤ) ≤ 2 ∧ (2 : ℤ) < 3 ∧
    get_chunk_count charEncode "aaaaaa" 3 2 = .ok 4 ∧
    chunk_text charEncode charDecode "aaaaaa" 3 2 =
      .ok ["aaa", "aaa", "aaa", "aaa", "aa", "a"] ∧
    1 < ((4 : ℤ) - ((["aaa", "aaa", "aaa", "aaa", "aa", "a"] : List String).length : ℤ)).natAbs := by
  refine ⟨by decide, by decide, by decide, ?_, by decide, by decide⟩
  simp only [get_chunk_count]
  rw [if_neg (by decide), if_neg (by decide), if_neg (by decide), if_neg (by decide),
    if_neg (by decide), show ((charEncode "aaaaaa").length : ℤ) = 6 by decide,
    ceil_intCast_div (6 - 2) (3 - 2) (by norm_num)]
  decide

/-- **C5, amended**. For every text and every valid parameter pair that also
satisfies `2 * overlap ≤ chunk_size` (equivalently `overlap ≤ chunk_size - overlap`;
this covers the module defaults 1000/200 and every pair the test suite exercises),
the predicted chunk count and the number of chunks actually produced differ by at
most 1. -/
theorem chunk_count_accuracy (encode : String → List Nat) (decode : List Nat → String)
    (text : String) (chunk_size overlap : ℤ)
    (hcs : 1 ≤ chunk_size) (hov : 0 ≤ overlap) (hlt : overlap < chunk_size)
    (hhalf : 2 * overlap ≤ chunk_size) :
    ∃ (c : ℤ) (l : List String),
      get_chunk_count encode text chunk_size overlap = .ok c ∧
      chunk_text encode decode text chunk_size overlap = .ok l ∧
      (c - (l.length : ℤ)).natAbs ≤ 1 := by
  simp only [get_chunk_count, chunk_text]
  by_cases hbl : isBlank text
  · rw [if_pos hbl, if_pos hbl]
    exact ⟨0, [], rfl, rfl, by norm_num⟩
  · rw [if_neg hbl, if_neg hbl, if_neg (show ¬ chunk_size < 1 by omega),
      if_neg (show ¬ chunk_size < 1 by omega), if_neg (show ¬ overlap < 0 by omega),
      if_neg (show ¬ overlap < 0 by omega), if_neg (show ¬ chunk_size ≤ overlap by omega),
      if_neg (show ¬ chunk_size ≤ overlap by omega)]
    by_cases hsmall : (((encode text).length : ℤ)) ≤ chunk_size
    · rw [if_pos hsmall, if_pos hsmall]
      exact ⟨1, [text], rfl, rfl, by norm_num⟩
    · rw [if_neg hsmall, if_neg hsmall]
      refine ⟨_, _, rfl, rfl, ?_⟩
      rw [slide_length decode (encode text) chunk_size.toNat (chunk_size - overlap).toNat 0
        (by omega)]
      set n : ℕ := (encode text).length with hn
      rw [ceil_intCast_div ((n : ℤ) - overlap) (chunk_size - overlap) (by omega)]
      have hA : (((n - 0 + (chunk_size - overlap).toNat - 1) / (chunk_size - overlap).toNat : ℕ) : ℤ)
          = ((n : ℤ) + (chunk_size - overlap) - 1) / (chunk_size - overlap) := by
        rw [Int.natCast_ediv]
        show ((n - 0 + (chunk_size - overlap).toNat - 1 : ℕ) : ℤ) /
            (((chunk_size - overlap).toNat : ℕ) : ℤ)
          = ((n : ℤ) + (chunk_size - overlap) - 1) / (chunk_size - overlap)
        congr 1 <;> omega
      rw [hA]
      set s : ℤ := chunk_size - overlap with hsdef
      have hs0 : (0 : ℤ) < s := by omega
      have hnc : chunk_size < (n : ℤ) := by omega
      have hBA : ((n : ℤ) - overlap + s - 1) / s ≤ ((n : ℤ) + s - 1) / s :=
        Int.ediv_le_ediv hs0 (by omega)
      have hAB : ((n : ℤ) + s - 1) / s ≤ ((n : ℤ) - overlap + s - 1) / s + 1 := by
        calc ((n : ℤ) + s - 1) / s ≤ (((n : ℤ) - overlap + s - 1) + 1 * s) / s :=
              Int.ediv_le_ediv hs0 (by omega)
          _ = ((n : ℤ) - overlap + s - 1) / s + 1 := by
              rw [Int.add_mul_ediv_right _ _ (by omega : s ≠ 0)]
      have hB1 : 1 ≤ ((n : ℤ) - overlap + s - 1) / s := by
        rw [Int.le_ediv_iff_mul_le hs0]
        omega
      rw [max_eq_right hB1]
      omega

/-- Witness for the amended C5 at a 4-token text with `(chunk_size, overlap) = (2, 0)`. -/
theorem chunk_count_accuracy_witness :
    (1 : ℤ) ≤ 2 ∧ (0 : ℤ) ≤ 0 ∧ (0 : ℤ) < 2 ∧ (2 * 0 : ℤ) ≤ 2 ∧
    (∃ (c : ℤ) (l : List String),
      get_chunk_count charEncode "aaaa" 2 0 = .ok c ∧
      chunk_text charEncode charDecode "aaaa" 2 0 = .ok l ∧
      (c - (l.length : ℤ)).natAbs ≤ 1) :=
  ⟨by decide, by decide, by decide, by decide,
    chunk_count_accuracy charEncode charDecode "aaaa" 2 0
      (by decide) (by decide) (by decide) (by decide)⟩

/-! ## Context assembler and history trimmer (`app/routes/chat.py`) -/

/-- `MAX_CONTEXT_TOKENS = 8000` from chat.py. -/
def MAX_CONTEXT_TOKENS : ℕ := 8000

/-- `MAX_HISTORY_TOKENS = 4000` from chat.py. -/
def MAX_HISTORY_TOKENS : ℕ := 4000

/-- One row returned by the `match_embeddings` similarity search (spec §3
`RetrievedMatch`): `{id, chunk_index, chunk_text, similarity}`.  The source reads
these from dicts with `.get` defaults; the spec's data model fixes all four
fields, so the record is total here. -/
structure RetrievedMatch where
  id : String
  chunk_index : ℤ
  chunk_text : String
  similarity : ℚ
deriving DecidableEq, Repr

/-- The sort relation of `_assemble_context`: ascending `chunk_index`
(`sorted(active_matches, key=lambda item: item.get("chunk_index", 0))`). -/
def byIndex (a b : RetrievedMatch) : Prop := a.chunk_index ≤ b.chunk_index

instance : DecidableRel byIndex :=
  fun a b => inferInstanceAs (Decidable (a.chunk_index ≤ b.chunk_index))

instance : IsTotal RetrievedMatch byIndex :=
  ⟨fun a b => le_total a.chunk_index b.chunk_index⟩

instance : IsTrans RetrievedMatch byIndex :=
  ⟨fun _ _ _ h1 h2 => le_trans h1 h2⟩

/-- `"\n\n---\n\n".join(chunk.get("chunk_text", "") for chunk in ordered)`
(chat.py line 119). -/
def joinContext (l : List RetrievedMatch) : String :=
  String.intercalate "\n\n---\n\n" (l.map (fun c => c.chunk_text))

/-- The lowest similarity among the matches, i.e. the key of
`min(active_matches, key=lambda item: item.get("similarity") or 0.0)`;
0 for the empty list (never queried there). -/
def minSim : List RetrievedMatch → ℚ
  | [] => 0
  | [m] => m.similarity
  | m :: rest => min m.similarity (minSim rest)

/-- `active_matches.remove(lowest)` for `lowest = min(active_matches, key=similarity)`:
Python's `min` returns the first minimiser and `list.remove` deletes its first
occurrence (an identical dict earlier in the list would itself be a first
minimiser), so exactly the first element attaining the minimum similarity goes. -/
def removeLowest (s : ℚ) : List RetrievedMatch → List RetrievedMatch
  | [] => []
  | m :: rest => if m.similarity = s then rest else m :: removeLowest s rest

/-- The `while active_matches:` loop of `_assemble_context` (chat.py lines
117-137), with an explicit iteration budget `fuel` making the recursion structural
(and hence kernel-computable): sort the surviving candidates by `chunk_index`
(Python's `sorted` is stable, as is `insertionSort`, and any two stable sorts
agree), join their texts, and either return them — when the token count is within
`MAX_CONTEXT_TOKENS` — or evict the lowest-similarity candidate and retry.  Each
pass removes exactly one candidate, so a budget of the initial length always
suffices; `_assemble_context` supplies it.  An exhausted candidate set raises
HTTP 404 "Unable to assemble context within token limits", modelled as the error
value `"NoFittingContext"` (the spec's name for this condition, §7). -/
def assembleAux (tokens : String → ℕ) :
    ℕ → List RetrievedMatch → Except String (List RetrievedMatch)
  | _, [] => .error "NoFittingContext"
  | 0, _ :: _ => .error "NoFittingContext"
  | fuel + 1, active =>
    let ordered := List.insertionSort byIndex active
    if tokens (joinContext ordered) ≤ MAX_CONTEXT_TOKENS then .ok ordered
    else assembleAux tokens fuel (removeLowest (minSim active) active)

/-- `_assemble_context` from chat.py, lines 112-137: `matches.copy()` feeds the
eviction loop, whose (provably sufficient) iteration budget is the number of
matches.  `tokens` abstracts `count_tokens`.  (The source's parameter name
`matches` is a reserved word in Lean, hence `ms`.) -/
def _assemble_context (tokens : String → ℕ) (ms : List RetrievedMatch) :
    Except String (List RetrievedMatch) :=
  assembleAux tokens ms.length ms

/-- A conversation turn (spec §3 `ConversationTurn`): `{role, content}`. -/
structure ConversationTurn where
  role : String
  content : String
deriving DecidableEq, Repr

/-- A history record prepared for the generation call:
`{"role": ..., "parts": [...]}`. -/
structure GeminiMessage where
  role : String
  parts : List String
deriving DecidableEq, Repr

/-- `{"role": msg.role, "parts": [msg.content]}` (chat.py line 163). -/
def toGeminiMessage (m : ConversationTurn) : GeminiMessage :=
  { role := m.role, parts := [m.content] }

/-- The backward scan of `_prepare_history` (chat.py lines 146-154), applied to
the reversed history (`history[::-1]`): keep a turn while the running token total
stays within the budget, stop (`break`) at the first turn whose inclusion would
exceed it.  `trimmed.insert(0, message)` makes the kept turns come out in
chronological order, hence the `++ [m]`. -/
def trimRev (tokens : String → ℕ) (budget : ℕ) (running : ℕ) :
    List ConversationTurn → List ConversationTurn
  | [] => []
  | m :: rest =>
    if budget < running + tokens m.content then []
    else trimRev tokens budget (running + tokens m.content) rest ++ [m]

/-- The body of `_prepare_history`, generalized over the token budget (this is the
spec's `trim_history(turns, max_tokens)`, §4.2 Contract B): empty input returns
`[]`; otherwise scan from most recent to oldest and emit each kept turn as a
`{role, parts: [content]}` record. -/
def trim_history (tokens : String → ℕ) (budget : ℕ)
    (history : List ConversationTurn) : List GeminiMessage :=
  if history = [] then []
  else (trimRev tokens budget 0 history.reverse).map toGeminiMessage

/-- `_prepare_history` from chat.py, lines 140-163: `trim_history` at the fixed
budget `MAX_HISTORY_TOKENS`. -/
def _prepare_history (tokens : String → ℕ) (history : List ConversationTurn) :
    List GeminiMessage :=
  trim_history tokens MAX_HISTORY_TOKENS history

/-- Total token count of a list of turns
(the running total accumulated by `_prepare_history`). -/
def sumTokens (tokens : String → ℕ) (l : List ConversationTurn) : ℕ :=
  (l.map (fun m => tokens m.content)).sum

/-! ## Theorems: context assembler claims -/

/-- `minSim` is a lower bound on every similarity in the list. -/
theorem minSim_le : ∀ (l : List RetrievedMatch), ∀ m ∈ l, minSim l ≤ m.similarity
  | [], m, hm => absurd hm (List.not_mem_nil m)
  | [x], m, hm => by
    rcases List.mem_singleton.mp hm with rfl
    exact le_refl _
  | x :: y :: rest, m, hm => by
    rcases List.mem_cons.mp hm with rfl | hm'
    · exact min_le_left _ _
    · exact le_trans (min_le_right _ _) (minSim_le (y :: rest) m hm')

/-- `minSim` is attained by some element of a non-empty list. -/
theorem minSim_mem : ∀ (l : List RetrievedMatch), l ≠ [] →
    ∃ m ∈ l, m.similarity = minSim l
  | [], h => absurd rfl h
  | [x], _ => ⟨x, List.mem_singleton_self x, rfl⟩
  | x :: y :: rest, _ => by
    rcases minSim_mem (y :: rest) (by simp) with ⟨m, hm, hms⟩
    by_cases hx : x.similarity ≤ minSim (y :: rest)
    · exact ⟨x, List.mem_cons_self _ _, (min_eq_left hx).symm⟩
    · refine ⟨m, List.mem_cons_of_mem _ hm, ?_⟩
      show m.similarity = min x.similarity (minSim (y :: rest))
      rw [min_eq_right (le_of_not_le hx)]
      exact hms

/-- Removing the first element that attains a similarity present in the list
yields a one-element-smaller permutation complement. -/
theorem removeLowest_perm : ∀ (l : List RetrievedMatch) (s : ℚ),
    (∃ m ∈ l, m.similarity = s) →
    ∃ m, m.similarity = s ∧ l.Perm (m :: removeLowest s l)
  | [], s, h => by
    rcases h with ⟨m, hm, -⟩
    exact absurd hm (List.not_mem_nil m)
  | x :: rest, s, h => by
    by_cases hx : x.similarity = s
    · refine ⟨x, hx, ?_⟩
      simp only [removeLowest, if_pos hx]
      exact List.Perm.refl _
    · have h' : ∃ m ∈ rest, m.similarity = s := by
        rcases h with ⟨m, hm, hms⟩
        rcases List.mem_cons.mp hm with rfl | hm'
        · exact absurd hms hx
        · exact ⟨m, hm', hms⟩
      rcases removeLowest_perm rest s h' with ⟨m, hms, hp⟩
      refine ⟨m, hms, ?_⟩
      simp only [removeLowest, if_neg hx]
      exact (hp.cons x).trans (List.Perm.swap m x (removeLowest s rest))

/-- Master property of the eviction loop, proved by induction on the iteration
budget: with a sufficient budget the loop either returns a non-empty selection —
a sub-multiset of the candidates sorted by `chunk_index` whose joined texts fit
the context budget, with every evicted candidate's similarity at most every
survivor's — or it fails with `NoFittingContext`. -/
theorem assembleAux_spec (tokens : String → ℕ) :
    ∀ (fuel : ℕ) (active : List RetrievedMatch), active.length ≤ fuel →
      (∃ result evicted, assembleAux tokens fuel active = .ok result ∧
        result ≠ [] ∧
        active.Perm (evicted ++ result) ∧
        List.Sorted byIndex result ∧
        tokens (joinContext result) ≤ MAX_CONTEXT_TOKENS ∧
        ∀ e ∈ evicted, ∀ m ∈ result, e.similarity ≤ m.similarity) ∨
      assembleAux tokens fuel active = .error "NoFittingContext" := by
  intro fuel
  induction fuel with
  | zero =>
    intro active h
    have hnil : active = [] := List.length_eq_zero.mp (by omega)
    subst hnil
    right
    rfl
  | succ n ih =>
    intro active h
    cases active with
    | nil =>
      right
      rfl
    | cons a rest =>
      by_cases hfit :
          tokens (joinContext (List.insertionSort byIndex (a :: rest))) ≤ MAX_CONTEXT_TOKENS
      · left
        refine ⟨List.insertionSort byIndex (a :: rest), [], ?_, ?_, ?_, ?_, hfit, ?_⟩
        · simp only [assembleAux]
          rw [if_pos hfit]
        · intro hnil
          have hlen := (List.perm_insertionSort byIndex (a :: rest)).length_eq
          rw [hnil] at hlen
          simp only [List.length_nil, List.length_cons] at hlen
          omega
        · simpa using (List.perm_insertionSort byIndex (a :: rest)).symm
        · exact List.sorted_insertionSort byIndex (a :: rest)
        · intro e he
          exact absurd he (List.not_mem_nil e)
      · have hmem : ∃ m ∈ a :: rest, m.similarity = minSim (a :: rest) :=
          minSim_mem _ (by simp)
        obtain ⟨x, hxs, hperm⟩ := removeLowest_perm (a :: rest) (minSim (a :: rest)) hmem
        have hlen : (removeLowest (minSim (a :: rest)) (a :: rest)).length ≤ n := by
          have hl := hperm.length_eq
          simp only [List.length_cons] at hl h
          omega
        rcases ih (removeLowest (minSim (a :: rest)) (a :: rest)) hlen with
          ⟨result, evicted, hok, hne, hp, hs, hfit2, hev⟩ | herr
        · left
          refine ⟨result, x :: evicted, ?_, hne, ?_, hs, hfit2, ?_⟩
          · simp only [assembleAux]
            rw [if_neg hfit]
            exact hok
          · exact hperm.trans (hp.cons x)
          · intro e he m hm
            rcases List.mem_cons.mp he with heq | he'
            · have hmRL : m ∈ removeLowest (minSim (a :: rest)) (a :: rest) :=
                hp.symm.subset (List.mem_append_right evicted hm)
              have hmact : m ∈ a :: rest :=
                hperm.symm.subset (List.mem_cons_of_mem x hmRL)
              rw [heq, hxs]
              exact minSim_le _ m hmact
            · exact hev e he' m hm
        · right
          simp only [assembleAux]
          rw [if_neg hfit]
          exact herr

/-- **C1**. For every token-counting function and every list of retrieved matches,
`_assemble_context` either succeeds with a non-empty sub-multiset of the input
sorted by `chunk_index` whose texts, joined with `"\n\n---\n\n"`, count at most
`MAX_CONTEXT_TOKENS = 8000` tokens — and every evicted candidate has similarity at
most that of every kept one, as repeated eviction of the lowest-similarity
candidate guarantees — or it fails with the `NoFittingContext` condition and
returns no partial result. -/
theorem assemble_context_budget_or_nofit (tokens : String → ℕ)
    (ms : List RetrievedMatch) :
    (∃ result evicted, _assemble_context tokens ms = .ok result ∧
      result ≠ [] ∧
      ms.Perm (evicted ++ result) ∧
      List.Sorted byIndex result ∧
      tokens (joinContext result) ≤ MAX_CONTEXT_TOKENS ∧
      ∀ e ∈ evicted, ∀ m ∈ result, e.similarity ≤ m.similarity) ∨
    _assemble_context tokens ms = .error "NoFittingContext" :=
  assembleAux_spec tokens ms.length ms le_rfl

/-- **C6**. Whenever `_assemble_context` succeeds, the returned list is sorted by
`chunk_index` in ascending order, regardless of which candidates were evicted. -/
theorem assemble_context_sorted (tokens : String → ℕ)
    (ms result : List RetrievedMatch)
    (h : _assemble_context tokens ms = .ok result) :
    List.Sorted byIndex result := by
  unfold _assemble_context at h
  rcases assembleAux_spec tokens ms.length ms le_rfl with
    ⟨r, evicted, hok, -, -, hs, -, -⟩ | herr
  · rw [h] at hok
    injection hok with hr
    rw [hr]
    exact hs
  · rw [herr] at h
    exact Except.noConfusion h

/-- A concrete retrieved match used in witnesses. -/
def matchA : RetrievedMatch :=
  { id := "a", chunk_index := 0, chunk_text := "alpha", similarity := 9 / 10 }

/-- A second concrete retrieved match used in witnesses. -/
def matchB : RetrievedMatch :=
  { id := "b", chunk_index := 1, chunk_text := "beta", similarity := 4 / 5 }

/-- Witness for C6: with a zero-cost token counter the full input fits, and the
result comes back sorted by `chunk_index`. -/
theorem assemble_context_sorted_witness :
    _assemble_context (fun _ => 0) [matchB, matchA] = .ok [matchA, matchB] ∧
    List.Sorted byIndex [matchA, matchB] :=
  ⟨by rfl,
    assemble_context_sorted (fun _ => 0) [matchB, matchA] [matchA, matchB] (by rfl)⟩

/-! ## Theorems: history trimming claims -/

/-- Master property of the backward scan: it keeps a prefix of the reversed
history (reversed back into chronological order), whose token total together with
the running total stays within the budget, and it stops exactly at the first turn
whose inclusion would exceed the budget. -/
theorem trimRev_spec (tokens : String → ℕ) (budget : ℕ) :
    ∀ (l : List ConversationTurn) (running : ℕ), running ≤ budget →
      ∃ k, k ≤ l.length ∧
        trimRev tokens budget running l = (l.take k).reverse ∧
        running + sumTokens tokens (l.take k) ≤ budget ∧
        ∀ m rest, l.drop k = m :: rest →
          budget < running + sumTokens tokens (l.take k) + tokens m.content := by
  intro l
  induction l with
  | nil =>
    intro running hr
    refine ⟨0, le_rfl, rfl, ?_, ?_⟩
    · simpa [sumTokens] using hr
    · intro m rest hd
      exact absurd hd (by simp)
  | cons m rest ih =>
    intro running hr
    by_cases hover : budget < running + tokens m.content
    · refine ⟨0, Nat.zero_le _, ?_, ?_, ?_⟩
      · simp only [trimRev, if_pos hover]
        rfl
      · simpa [sumTokens] using hr
      · intro m' rest' hd
        simp only [List.drop_zero] at hd
        injection hd with h1 h2
        subst h1
        simpa [sumTokens] using hover
    · push_neg at hover
      obtain ⟨k, hk, heq, hsum, hstop⟩ := ih (running + tokens m.content) hover
      refine ⟨k + 1, by simpa using Nat.succ_le_succ hk, ?_, ?_, ?_⟩
      · simp only [trimRev, if_neg (not_lt.mpr hover)]
        rw [heq, List.take_succ_cons, List.reverse_cons]
      · simp only [List.take_succ_cons, sumTokens, List.map_cons, List.sum_cons]
        simp only [sumTokens] at hsum
        omega
      · intro m' rest' hd
        simp only [List.drop_succ_cons] at hd
        have hst := hstop m' rest' hd
        simp only [List.take_succ_cons, sumTokens, List.map_cons, List.sum_cons] at hst ⊢
        omega

/-- **C7**. For every token-counting function, token budget and conversation
history, `trim_history` (the body of `_prepare_history`, generalized over the
budget) keeps a contiguous suffix of the input — the most recent turns, in the
original chronological order — whose summed per-turn token counts do not exceed
the budget; it stops at the first turn (scanning backward) whose inclusion would
exceed the budget, never skipping it to reach an older smaller turn; each kept
turn is emitted as a `{role, parts: [content]}` record; empty input yields `[]`. -/
theorem trim_history_suffix (tokens : String → ℕ) (budget : ℕ)
    (history : List ConversationTurn) :
    ∃ pre kept, history = pre ++ kept ∧
      trim_history tokens budget history = kept.map toGeminiMessage ∧
      sumTokens tokens kept ≤ budget ∧
      ∀ p m, pre = p ++ [m] →
        budget < tokens m.content + sumTokens tokens kept := by
  by_cases hnil : history = []
  · subst hnil
    refine ⟨[], [], rfl, rfl, by simp [sumTokens], ?_⟩
    intro p m hp
    have := congrArg List.length hp
    simp at this
  · obtain ⟨k, hk, heq, hsum, hstop⟩ :=
      trimRev_spec tokens budget history.reverse 0 (Nat.zero_le _)
    refine ⟨(history.reverse.drop k).reverse, (history.reverse.take k).reverse, ?_, ?_, ?_, ?_⟩
    · conv_lhs => rw [← history.reverse_reverse, ← List.take_append_drop k history.reverse]
      rw [List.reverse_append]
    · unfold trim_history
      rw [if_neg hnil, heq]
    · unfold sumTokens
      rw [List.map_reverse, List.sum_reverse]
      simpa [sumTokens] using hsum
    · intro p m hp
      have hd : history.reverse.drop k = m :: p.reverse := by
        have hrev := congrArg List.reverse hp
        simpa using hrev
      have hst := hstop m p.reverse hd
      unfold sumTokens
      rw [List.map_reverse, List.sum_reverse]
      simp only [sumTokens] at hst
      omega

/-- **C10**. For every non-empty history whose most recent turn alone exceeds the
`MAX_HISTORY_TOKENS = 4000` budget, `_prepare_history` returns the empty list:
turns are kept or dropped whole, never truncated to partially fit. -/
theorem prepare_history_oversized_last_turn (tokens : String → ℕ)
    (rest : List ConversationTurn) (m : ConversationTurn)
    (h : MAX_HISTORY_TOKENS < tokens m.content) :
    _prepare_history tokens (rest ++ [m]) = [] := by
  unfold _prepare_history trim_history
  rw [if_neg (by simp)]
  simp only [List.reverse_append, List.reverse_singleton, List.singleton_append]
  simp only [trimRev]
  rw [if_pos (by omega)]
  rfl

/-- Witness for C10: a single turn of 4001 tokens yields the empty history. -/
theorem prepare_history_oversized_last_turn_witness :
    MAX_HISTORY_TOKENS <
      (fun _ : String => 4001) (ConversationTurn.mk "user" "hi").content ∧
    _prepare_history (fun _ => 4001) ([] ++ [ConversationTurn.mk "user" "hi"]) = [] :=
  ⟨by decide,
    prepare_history_oversized_last_turn (fun _ => 4001) [] (ConversationTurn.mk "user" "hi")
      (by decide)⟩
